import Mathlib

/-!
Verification development for the SBOM generator's license-resolution engine
(`sbom_generator.py`).  The Python source is shallowly embedded: pure string
manipulation is translated to Lean functions on `String`/`List Char`, the
network-facing Maven/GitHub clients become an explicit environment record of
fetch functions, and in-place list mutation becomes a pure list transformation.
-/

namespace Sbom

/-! ## Basic string helpers (Python `str` semantics) -/

/-- Python `\s` / `str.strip()` whitespace characters. -/
def isSpaceChar (c : Char) : Bool :=
  c = ' ' || c = '\t' || c = '\n' || c = '\r' || c = '\x0b' || c = '\x0c'

/-- Python `\w` word characters (ASCII range, as used by the source's regexes). -/
def isWordChar (c : Char) : Bool :=
  c.isAlphanum || c = '_'

/-- Python `str.strip()` with no argument: trim whitespace on both sides. -/
def pyStrip (s : String) : String :=
  ⟨((s.data.dropWhile isSpaceChar).reverse.dropWhile isSpaceChar).reverse⟩

/-- Python `str.lower()` restricted to the ASCII letters that occur in the
source's license tables. -/
def pyLowerChar (c : Char) : Char :=
  if 'A' ≤ c ∧ c ≤ 'Z' then Char.ofNat (c.toNat + 32) else c

def pyLower (s : String) : String :=
  ⟨s.data.map pyLowerChar⟩

/-- Python `str.strip('"')`: remove all leading and trailing double quotes. -/
def stripQuotes (s : String) : String :=
  ⟨((s.data.dropWhile (fun c => c = '"')).reverse.dropWhile (fun c => c = '"')).reverse⟩

/-- `listHasPre pat s` holds when `pat` is a leading segment of `s`
(Python `str.startswith`). -/
def listHasPre (pat : List Char) : List Char → Bool
  | [] => pat.isEmpty
  | c :: cs =>
    match pat with
    | [] => true
    | p :: ps => p = c && listHasPre ps cs

/-- `listHasSub pat s` holds when `pat` occurs contiguously inside `s`
(Python `pat in s`). -/
def listHasSub (pat : List Char) : List Char → Bool
  | [] => listHasPre pat []
  | c :: cs => listHasPre pat (c :: cs) || listHasSub pat cs

/-- Python substring containment `pat in s` on strings. -/
def strContainsSub (s pat : String) : Bool :=
  listHasSub pat.data s.data

/-- Split a character list at the first occurrence of `sep`
(Python `s.split(sep, 1)` when it yields two pieces; `none` when `sep` is
absent, in which case the Python tuple-unpacking raises `ValueError`). -/
def splitFirst (sep : Char) : List Char → Option (List Char × List Char)
  | [] => none
  | c :: cs =>
    if c = sep then some ([], cs)
    else (splitFirst sep cs).map fun pr => (c :: pr.1, pr.2)

/-- First occurrence of each element, in first-seen order (the key order of a
Python insertion-ordered dict). -/
def firstSeen {α : Type} [DecidableEq α] : List α → List α
  | [] => []
  | k :: ks => k :: firstSeen (ks.filter fun x => x ≠ k)
termination_by l => l.length
decreasing_by
  simp only [List.length_cons]
  exact Nat.lt_succ_of_le (List.length_filter_le _ _)

/-- Association-list lookup by exact key (Python dict access). -/
def assocLookup {κ β : Type} [DecidableEq κ] : List (κ × β) → κ → Option β
  | [], _ => none
  | (k, b) :: rest, k0 => if k0 = k then some b else assocLookup rest k0

/-! ## License name canonicalizer (`LicenseMapper`) -/

def apacheUrl : String := "https://www.apache.org/licenses/LICENSE-2.0.txt"
def mitUrl : String := "https://opensource.org/licenses/MIT"
def bsd3Url : String := "https://opensource.org/licenses/BSD-3-Clause"
def gpl2Url : String := "https://www.gnu.org/licenses/old-licenses/gpl-2.0.html"
def gpl3Url : String := "https://www.gnu.org/licenses/gpl-3.0.html"
def lgpl3Url : String := "https://www.gnu.org/licenses/lgpl-3.0.html"
def epl2Url : String := "https://www.eclipse.org/legal/epl-2.0/"
def epl1Url : String := "https://www.eclipse.org/legal/epl-v10.html"
def mpl2Url : String := "https://www.mozilla.org/en-US/MPL/2.0/"
def mpl11Url : String := "https://www.mozilla.org/en-US/MPL/1.1/"
def alfrescoUrl : String := "https://www.alfresco.com/legal/agreements"

/-- The static `_LICENSE_URLS` table, in source order. -/
def licenseUrlTable : List (String × String) := [
  ("apache-2.0", apacheUrl),
  ("apache license, version 2.0", apacheUrl),
  ("the apache software license, version 2.0", apacheUrl),
  ("the apache software license", apacheUrl),
  ("apache license", apacheUrl),
  ("mit", mitUrl),
  ("mit license", mitUrl),
  ("bsd-3-clause", bsd3Url),
  ("bsd license", bsd3Url),
  ("bsd licence", bsd3Url),
  ("gpl-2.0", gpl2Url),
  ("gpl-3.0", gpl3Url),
  ("gnu general public license v2", "https://www.gnu.org/licenses/old-licenses/gpl-2.0.txt"),
  ("lgpl-3.0", lgpl3Url),
  ("lgplv3", lgpl3Url),
  ("gnu lesser general public license v3.0 or later", lgpl3Url),
  ("eclipse public license - v 2.0", epl2Url),
  ("eclipse public license, version 1.0", epl1Url),
  ("mpl-2.0", mpl2Url),
  ("mozilla public license version 1.1", mpl11Url),
  ("cddl", "https://opensource.org/licenses/CDDL-1.0"),
  ("unicode-3.0", "https://www.unicode.org/license.txt"),
  ("bouncy castle licence", "https://www.bouncycastle.org/licence.html"),
  ("common public license", "https://opensource.org/licenses/CPL-1.0"),
  ("cup parser generator copyright notice, license, and disclaimer",
    "http://www2.cs.tum.edu/projects/cup/licence.php"),
  ("alfresco component license agreement", alfrescoUrl)]

/-- `LicenseMapper._apply_heuristics`: ordered containment rules over the
normalized name; the first matching rule wins.  (The `context` parameter of
the source only controls a diagnostic print and is omitted.) -/
def apply_url_heuristics (license_name : String) : Option String :=
  if strContainsSub license_name "apache" && strContainsSub license_name "2.0" then
    some apacheUrl
  else if listHasPre "mit".data license_name.data then
    some mitUrl
  else if strContainsSub license_name "bsd" then
    some bsd3Url
  else if strContainsSub license_name "eclipse" then
    (if strContainsSub license_name "2.0" then some epl2Url else some epl1Url)
  else if strContainsSub license_name "lgpl" || strContainsSub license_name "lesser" then
    some lgpl3Url
  else if strContainsSub license_name "gpl" then
    (if strContainsSub license_name "3" then some gpl3Url else some gpl2Url)
  else if strContainsSub license_name "mozilla" || strContainsSub license_name "mpl" then
    (if strContainsSub license_name "2.0" then some mpl2Url else some mpl11Url)
  else if strContainsSub license_name "alfresco" then
    some alfrescoUrl
  else
    none

/-- The normalization step of `LicenseMapper.get_url`:
`license_name.lower().strip().strip('"')`. -/
def normalizeLicName (license_name : String) : String :=
  stripQuotes (pyStrip (pyLower license_name))

/-- `LicenseMapper.get_url`: exact table lookup on the normalized name, then
the heuristic rules. -/
def get_url (license_name : String) : Option String :=
  let normalized := normalizeLicName license_name
  match assocLookup licenseUrlTable normalized with
  | some u => some u
  | none => apply_url_heuristics normalized

/-- `get_canonical_license_url`. -/
def get_canonical_license_url (license_name : String) : Option String :=
  get_url license_name

/-! ## Data model -/

/-- `License` dataclass.  `License.__post_init__` canonicalizes an absent or
empty URL, which is captured by the smart constructors below; records built
directly with `⟨_, _⟩` represent already populated instances. -/
structure License where
  name : String
  url : Option String
deriving DecidableEq, Repr

/-- `License(name=n)` (URL left to `__post_init__`). -/
def mkLicense (name : String) : License :=
  ⟨name, get_canonical_license_url name⟩

/-- `Package` dataclass (the `licenses=None` default is never exercised by the
engine: every constructor call site passes a list). -/
structure Package where
  name : String
  version : String
  purl : String
  licenses : List License
  license_source : String
deriving DecidableEq, Repr

/-- `Package.unique_key`. -/
def Package.unique_key (p : Package) : String × String :=
  (p.name, p.version)

/-! ## Maven Central client (`MavenCentralClient`) -/

/-- One `<license>` element of a POM: raw `name` and `url` texts
(`findtext` with default `''`). -/
structure PomLicenseElem where
  name : String
  url : String
deriving DecidableEq, Repr

/-- A `<parent>` element: raw coordinate texts, `""` meaning the child
element is absent (`findtext` default). -/
structure PomParent where
  groupId : String
  artifactId : String
  version : String
deriving DecidableEq, Repr

/-- The fields of a parsed POM document that the engine reads:
license elements, the `<scm><url>` text (`""` when absent), and the optional
`<parent>` element. -/
structure Pom where
  licenseElems : List PomLicenseElem
  scmUrl : String
  parent : Option PomParent
deriving Repr

/-- The network environment: `MavenCentralClient.fetch_pom` (a `None` result
covers non-200 responses and transport errors) and
`GitHubClient.get_license_from_repo_url` for the SCM fallback. -/
structure MavenEnv where
  fetch : String → String → String → Option Pom
  github : String → List License

/-- `MavenCentralClient.extract_licenses_from_pom`: collect license elements
with a non-empty stripped name (URL canonicalized when blank), falling back to
the GitHub client on the SCM URL when no licenses were found. -/
def extract_licenses_from_pom (env : MavenEnv) (pom : Pom) : List License :=
  let licenses := pom.licenseElems.filterMap fun le =>
    let name := pyStrip le.name
    if name ≠ "" then
      let url := pyStrip le.url
      some ⟨name, if url ≠ "" then some url else get_canonical_license_url name⟩
    else none
  if licenses ≠ [] then licenses
  else if pom.scmUrl ≠ "" then env.github pom.scmUrl
  else []

/-- The parent-coordinate computation of `lookup_license_recursively`:
group defaults to the child's `group_id` when unspecified; requires a
non-empty artifact and version. -/
def nextParent (group_id : String) (pom : Pom) : Option (String × String × String) :=
  match pom.parent with
  | none => none
  | some par =>
    let parent_group := pyStrip (if par.groupId ≠ "" then par.groupId else group_id)
    let parent_artifact := pyStrip par.artifactId
    let parent_version := pyStrip par.version
    if parent_artifact ≠ "" ∧ parent_version ≠ "" then
      some (parent_group, parent_artifact, parent_version)
    else none

/-- `MavenCentralClient.lookup_license_recursively` (depth budget as `Nat`;
the source's default is `max_depth = 4`). -/
def lookup_license_recursively (env : MavenEnv) (group_id artifact_id version : String) :
    Nat → List License
  | 0 => []
  | d + 1 =>
    match env.fetch group_id artifact_id version with
    | none => []
    | some pom =>
      let licenses := extract_licenses_from_pom env pom
      if licenses ≠ [] then licenses
      else
        match nextParent group_id pom with
        | none => []
        | some (pg, pa, pv) => lookup_license_recursively env pg pa pv d

/-- The parent chain visited from a triple: the triple itself, followed by the
chain from its parent coordinate, truncated at the depth budget.  The chain
stops where a fetch fails or no usable parent is declared. -/
def parentChain (env : MavenEnv) (group_id artifact_id version : String) :
    Nat → List (String × String × String)
  | 0 => []
  | d + 1 =>
    (group_id, artifact_id, version) ::
      match env.fetch group_id artifact_id version with
      | none => []
      | some pom =>
        match nextParent group_id pom with
        | none => []
        | some (pg, pa, pv) => parentChain env pg pa pv d

/-- Licenses extracted from the descriptor of one triple (empty when the
fetch fails). -/
def extractAt (env : MavenEnv) (t : String × String × String) : List License :=
  match env.fetch t.1 t.2.1 t.2.2 with
  | none => []
  | some pom => extract_licenses_from_pom env pom

/-- The extraction of the shallowest chain element whose extraction is
non-empty (empty when there is none). -/
def shallowestLicenses (env : MavenEnv) (ts : List (String × String × String)) : List License :=
  match ts.find? (fun t => !(extractAt env t).isEmpty) with
  | none => []
  | some t => extractAt env t

/-! ## Package-name heuristics (`PackageHeuristics`) -/

/-- The `HEURISTIC_RULES` table in declaration order: rule name, condition
list, license. -/
def heuristicRules : List (String × List (Package → Bool) × License) := [
  ("apache_packages",
   ([fun pkg => strContainsSub pkg.purl "org.apache",
     fun pkg => listHasPre "tomcat".data pkg.name.data || listHasPre "tika-".data pkg.name.data ||
       listHasPre "commons-".data pkg.name.data,
     fun pkg => pkg.name = "catalina" || pkg.name = "jasper" || pkg.name = "catalina-ha" ||
       pkg.name = "catalina-tribes" || pkg.name = "catalina-ssi" ||
       pkg.name = "catalina-storeconfig"],
    (⟨"Apache-2.0", get_canonical_license_url "apache-2.0"⟩ : License))),
  ("jakarta_packages",
   ([fun pkg => listHasPre "jakarta".data pkg.name.data],
    (⟨"EPL-2.0", get_canonical_license_url "eclipse public license - v 2.0"⟩ : License))),
  ("st4_packages",
   ([fun pkg => listHasPre "st4".data pkg.name.data || pkg.name = "ST4"],
    (⟨"BSD-3-Clause", get_canonical_license_url "bsd-3-clause"⟩ : License))),
  ("acegi_packages",
   ([fun pkg => listHasPre "acegi".data pkg.name.data],
    (⟨"Apache-2.0", get_canonical_license_url "apache-2.0"⟩ : License)))]

/-- `PackageHeuristics.apply_heuristics`: the first rule with a satisfied
condition yields its license; otherwise empty. -/
def apply_heuristics (package : Package) : List License :=
  match heuristicRules.findSome? (fun rule =>
      if rule.2.1.any (fun cond => cond package) then some rule.2.2 else none) with
  | some lic => [lic]
  | none => []

/-! ## License enricher (`LicenseEnricher`) -/

/-- `LicenseEnricher._extract_maven_coordinates`: split
`pkg:maven/<group>/<artifact>@<version>`; any failed split is `none`
(the source catches `ValueError`). -/
def extract_maven_coordinates (purl : String) : Option (String × String × String) :=
  if listHasPre "pkg:maven/".data purl.data then
    let path := purl.data.drop 10
    match splitFirst '@' path with
    | none => none
    | some (coordinates, version) =>
      match splitFirst '/' coordinates with
      | none => none
      | some (g, a) => some (⟨g⟩, ⟨a⟩, ⟨version⟩)
  else none

/-- `LicenseEnricher._lookup_package_licenses`: Maven Central first (when the
purl yields coordinates, with the default depth 4), then the name heuristics. -/
def lookup_package_licenses (env : MavenEnv) (package : Package) : List License :=
  match extract_maven_coordinates package.purl with
  | some (g, a, v) =>
    let licenses := lookup_license_recursively env g a v 4
    if licenses ≠ [] then licenses else apply_heuristics package
  | none => apply_heuristics package

/-- The `license_source` marker written by enrichment. -/
def enrichedSource : String := "Maven/GitHub/Heuristic"

/-- `LicenseEnricher.enrich_packages`: each package without licenses is
updated in place when the lookup chain finds something; the (mutated) input
list is returned.  In this pure embedding the in-place update of the list's
elements is the pointwise map below. -/
def enrich_packages (env : MavenEnv) (packages : List Package) : List Package :=
  packages.map fun pkg =>
    if pkg.licenses = [] then
      let licenses := lookup_package_licenses env pkg
      if licenses = [] then pkg
      else { pkg with licenses := licenses, license_source := enrichedSource }
    else pkg

/-! ## Syft output parser (`SyftOutputParser`)

The two regexes of the source are embedded with Python `re` semantics
(leftmost match, greedy quantifiers with backtracking, zero-width lookahead).
-/

/-- `[Vv]ersion\b` matches at the head of `cs`: a `V` or `v`, the letters
`ersion`, then a word boundary (the preceding `n` is a word character, so the
boundary holds exactly when the next character is absent or not a word
character). -/
def versionBound (cs : List Char) : Bool :=
  match cs with
  | c :: r1 =>
    (c = 'V' || c = 'v') &&
    (match r1 with
     | 'e' :: 'r' :: 's' :: 'i' :: 'o' :: 'n' :: rest =>
       (match rest with
        | [] => true
        | c7 :: _ => !isWordChar c7)
     | _ => false)
  | [] => false

/-- Matching of `\s*(?![Vv]ersion\b)` at the head of `cs` (the text right
after a comma): the greedy `\s*` first consumes as much whitespace as it can
and backtracks one character at a time until the negative lookahead succeeds;
the result is the number of characters consumed, or `none` when every amount
of consumed whitespace leaves `[Vv]ersion\b` ahead. -/
def sepConsume : List Char → Option Nat
  | [] => if versionBound [] then none else some 0
  | c :: cs =>
    if isSpaceChar c then
      match sepConsume cs with
      | some n => some (n + 1)
      | none => if versionBound (c :: cs) then none else some 0
    else
      if versionBound (c :: cs) then none else some 0

/-- `re.split(r',\s*(?![Vv]ersion\b)', text)`: scan the text; at each comma,
split when the separator regex matches there (consuming the comma and the
retained whitespace), otherwise keep the comma in the current fragment.
The fuel starts at the text length; every step consumes at least one
character, so the fuel-exhausted case is never reached. -/
def splitGo : Nat → List Char → List Char → List (List Char)
  | _, acc, [] => [acc.reverse]
  | 0, acc, rest => [acc.reverse ++ rest]
  | fuel + 1, acc, c :: cs =>
    if c = ',' then
      match sepConsume cs with
      | some n => acc.reverse :: splitGo fuel [] (cs.drop n)
      | none => splitGo fuel (c :: acc) cs
    else splitGo fuel (c :: acc) cs

def splitLicenseParts (text : String) : List String :=
  (splitGo text.data.length [] text.data).map fun l => ⟨l⟩

/-- `re.sub(r'https?://\S+', '', part)`: delete every maximal non-whitespace
run that starts with `http://` or `https://` and continues with at least one
further non-whitespace character after the scheme.  A matched run of length
`k + scheme` is removed by dropping `scheme + k` characters, where `k` is the
length of the non-whitespace run after the scheme. -/
def stripUrlsGo : Nat → List Char → List Char
  | _, [] => []
  | 0, l => l
  | fuel + 1, c :: cs =>
    if listHasPre "https://".data (c :: cs) &&
        (match cs.drop 7 with
         | [] => false
         | c8 :: _ => !isSpaceChar c8) then
      stripUrlsGo fuel (cs.drop (7 + ((cs.drop 7).takeWhile fun ch => !isSpaceChar ch).length))
    else if listHasPre "http://".data (c :: cs) &&
        (match cs.drop 6 with
         | [] => false
         | c7 :: _ => !isSpaceChar c7) then
      stripUrlsGo fuel (cs.drop (6 + ((cs.drop 6).takeWhile fun ch => !isSpaceChar ch).length))
    else
      c :: stripUrlsGo fuel cs

def stripUrls (s : String) : String :=
  ⟨stripUrlsGo s.data.length s.data⟩

/-- The per-fragment cleanup of `_parse_license_text`: strip the fragment,
delete URL tokens, truncate at the first semicolon, strip again. -/
def cleanFragment (part : String) : String :=
  pyStrip ⟨(stripUrls (pyStrip part)).data.takeWhile fun c => c ≠ ';'⟩

/-- `SyftOutputParser._parse_license_text`. -/
def parse_license_text (license_text : String) : List License :=
  if license_text = "" || license_text = "-" then []
  else
    (splitLicenseParts license_text).filterMap fun part =>
      let clean_name := cleanFragment part
      if clean_name ≠ "" then some (mkLicense clean_name) else none

/-- All ways to split a character list at a `':'`, in left-to-right order of
the colon position (candidates for the lazy groups of `PACKAGE_PATTERN`). -/
def colonSplits : List Char → List (List Char × List Char)
  | [] => []
  | c :: cs =>
    (if c = ':' then [(([] : List Char), cs)] else []) ++
      (colonSplits cs).map fun pr => (c :: pr.1, pr.2)

/-- Matching of the tail regex `(.*?) - ?(.*)$`: the lazy group ends at the
leftmost occurrence of a space followed by a dash; the optional trailing
space is consumed greedily. -/
def dashSplit : List Char → Option (List Char × List Char)
  | [] => none
  | [_] => none
  | ' ' :: '-' :: rest =>
    some ([],
      match rest with
      | ' ' :: r => r
      | r => r)
  | c :: cs => (dashSplit cs).map fun pr => (c :: pr.1, pr.2)

/-- Matching of `(.+?):(.*?) - ?(.*)$` (the part of `PACKAGE_PATTERN` after
the first colon): try each colon position for the lazy second group in order,
each with the earliest dash split of its remainder. -/
def matchTail (cs : List Char) : Option (String × String × String) :=
  ((colonSplits cs).filter fun pr => !pr.1.isEmpty).findSome? fun pr =>
    (dashSplit pr.2).map fun dd => ((⟨pr.1⟩ : String), (⟨dd.1⟩ : String), (⟨dd.2⟩ : String))

/-- `PACKAGE_PATTERN.match`: `^(.+?):(.+?):(.*?) - ?(.*)$` with lazy groups,
returning the four captured groups. -/
def matchPackageLine (line : String) : Option (String × String × String × String) :=
  ((colonSplits line.data).filter fun pr => !pr.1.isEmpty).findSome? fun pr =>
    (matchTail pr.2).map fun t => ((⟨pr.1⟩ : String), t.1, t.2.1, t.2.2)

/-- The fixed license text substituted for `alfresco-` packages whose license
text is missing. -/
def lgplFallbackText : String := "GNU Lesser General Public License v3.0 or later"

/-- The body of `SyftOutputParser.parse` for one matched line: strip the four
groups, apply the Alfresco special case, parse the license text. -/
def build_package (n v p lt : String) : Package :=
  let name := pyStrip n
  let version := pyStrip v
  let purl := pyStrip p
  let license_text := pyStrip lt
  let license_text :=
    if listHasPre "alfresco-".data name.data && (license_text = "" || license_text = "-") then
      lgplFallbackText
    else license_text
  { name := name, version := version, purl := purl,
    licenses := parse_license_text license_text, license_source := "Original" }

/-- `SyftOutputParser.parse` restricted to a single line: strip it, skip it
when blank or unmatched, otherwise build the package from the groups. -/
def parse_line (line : String) : Option Package :=
  let stripped := pyStrip line
  if stripped = "" then none
  else (matchPackageLine stripped).map fun g => build_package g.1 g.2.1 g.2.2.1 g.2.2.2

/-! ## Deduplicator (`PackageDeduplicator`) -/

/-- The license-merging loop of `deduplicate`: append each incoming license
whose name is not already present. -/
def mergeLicenses (existing incoming : List License) : List License :=
  incoming.foldl
    (fun acc lic => if acc.any (fun e => e.name = lic.name) then acc else acc ++ [lic])
    existing

/-- One iteration of the `deduplicate` loop over the insertion-ordered map of
merged packages. -/
def dedupStep (m : List ((String × String) × Package)) (p : Package) :
    List ((String × String) × Package) :=
  let key := p.unique_key
  match assocLookup m key with
  | none =>
    m ++ [(key,
      { name := p.name, version := p.version, purl := p.purl,
        licenses := mergeLicenses [] p.licenses, license_source := p.license_source })]
  | some _ =>
    m.map fun kv =>
      if kv.1 = key then (kv.1, { kv.2 with licenses := mergeLicenses kv.2.licenses p.licenses })
      else kv

/-- `PackageDeduplicator.deduplicate`. -/
def deduplicate (packages : List Package) : List Package :=
  (packages.foldl dedupStep []).map fun kv => kv.2

/-! Specification-side deduplicator, written from the spec's words
("groups by `(name, version)` key in first-seen order; the output package
takes the name/version/purl/license_source of the first-seen member and the
union of all members' licenses, preserving first-seen order and dropping
repeats with an identical license name"). -/

/-- Union of licenses in first-seen order, keeping the first occurrence of
each name. -/
def specLicenseUnion : List License → List License
  | [] => []
  | l :: ls => l :: specLicenseUnion (ls.filter fun x => x.name ≠ l.name)
termination_by l => l.length
decreasing_by
  simp only [List.length_cons]
  exact Nat.lt_succ_of_le (List.length_filter_le _ _)

/-- The merged output package for one key: the fields of the first-seen group
member and the name-deduplicated union of the group's licenses. -/
def specMerged (ps : List Package) (k : String × String) : Package :=
  let group := ps.filter fun p => p.unique_key = k
  { name := k.1, version := k.2,
    purl := ((group.head?.map Package.purl).getD ""),
    license_source := ((group.head?.map Package.license_source).getD ""),
    licenses := specLicenseUnion (group.map Package.licenses).flatten }

/-- The spec's deduplicator: distinct keys in first-seen order, each mapped to
the merge of its group. -/
def spec_dedup (ps : List Package) : List Package :=
  (firstSeen (ps.map Package.unique_key)).map (specMerged ps)

/-! ## Concrete test fixtures -/

/-- An environment where every fetch fails. -/
def emptyMavenEnv : MavenEnv :=
  { fetch := fun _ _ _ => none, github := fun _ => [] }

/-- A synthetic 5-link parent chain `a1 → a2 → a3 → a4 → a5` where only the
outermost descriptor `a5` declares license data. -/
def chainEnv5 : MavenEnv :=
  { fetch := fun _ a _ =>
      if a = "a1" then some ⟨[], "", some ⟨"", "a2", "1"⟩⟩
      else if a = "a2" then some ⟨[], "", some ⟨"", "a3", "1"⟩⟩
      else if a = "a3" then some ⟨[], "", some ⟨"", "a4", "1"⟩⟩
      else if a = "a4" then some ⟨[], "", some ⟨"", "a5", "1"⟩⟩
      else if a = "a5" then some ⟨[⟨"Apache-2.0", ""⟩], "", none⟩
      else none,
    github := fun _ => [] }

/-- A synthetic 3-link parent chain `b1 → b2 → b3` with license data at the
third link. -/
def chainEnv3 : MavenEnv :=
  { fetch := fun _ a _ =>
      if a = "b1" then some ⟨[], "", some ⟨"", "b2", "1"⟩⟩
      else if a = "b2" then some ⟨[], "", some ⟨"", "b3", "1"⟩⟩
      else if a = "b3" then some ⟨[⟨"MIT", ""⟩], "", none⟩
      else none,
    github := fun _ => [] }

/-- A cyclic environment: every descriptor fetch succeeds and declares itself
as its own parent, with no license data anywhere. -/
def selfLoopEnv : MavenEnv :=
  { fetch := fun g a v => some ⟨[], "", some ⟨g, a, v⟩⟩, github := fun _ => [] }

/-! ## Theorems -/

lemma shallowestLicenses_nil (env : MavenEnv) : shallowestLicenses env [] = [] := rfl

lemma shallowestLicenses_cons_empty (env : MavenEnv) (t : String × String × String)
    (ts : List (String × String × String)) (h : extractAt env t = []) :
    shallowestLicenses env (t :: ts) = shallowestLicenses env ts := by
  rw [shallowestLicenses, shallowestLicenses, List.find?_cons_of_neg]
  simp [h]

lemma shallowestLicenses_cons_nonempty (env : MavenEnv) (t : String × String × String)
    (ts : List (String × String × String)) (h : extractAt env t ≠ []) :
    shallowestLicenses env (t :: ts) = extractAt env t := by
  rw [shallowestLicenses, List.find?_cons_of_pos]
  simp [h]

/-- `lookup_license_recursively` returns exactly the extraction of the
shallowest chain element with a non-empty extraction. -/
lemma lookup_eq_shallowest (env : MavenEnv) :
    ∀ (d : Nat) (g a v : String),
    lookup_license_recursively env g a v d =
      shallowestLicenses env (parentChain env g a v d) := by
  intro d
  induction d with
  | zero => intro g a v; rfl
  | succ d ih =>
    intro g a v
    rw [lookup_license_recursively, parentChain]
    cases hf : env.fetch g a v with
    | none =>
      rw [shallowestLicenses_cons_empty env _ _ (by rw [extractAt, hf])]
      simp [hf, shallowestLicenses]
    | some pom =>
      by_cases hl : extract_licenses_from_pom env pom = []
      · have hex : extractAt env (g, a, v) = [] := by rw [extractAt, hf]; exact hl
        rw [shallowestLicenses_cons_empty env _ _ hex]
        cases hp : nextParent g pom with
        | none => simp [hf, hl, hp, shallowestLicenses]
        | some t =>
          obtain ⟨pg, pa, pv⟩ := t
          simp only [hf, hl, hp, ne_eq, not_true_eq_false, if_false]
          exact ih pg pa pv
      · have hex : extractAt env (g, a, v) ≠ [] := by rw [extractAt, hf]; exact hl
        rw [shallowestLicenses_cons_nonempty env _ _ hex, extractAt, hf]
        simp [hl]

/-- C1: for every coordinate triple, `lookup_license_recursively` returns the
license list extracted from the shallowest descriptor of the parent chain
whose extraction is non-empty, within the depth budget; with `max_depth = 0`
it returns the empty list for every triple and every environment; over the
synthetic 5-link chain with data only at the 5th link the default depth 4
yields an empty result, while over a 3-link chain with data at link 3 the data
is returned. -/
theorem resolve_recursive_shallowest_within_budget :
    (∀ (env : MavenEnv) (g a v : String) (d : Nat),
      lookup_license_recursively env g a v d =
        shallowestLicenses env (parentChain env g a v d)) ∧
    (∀ (env : MavenEnv) (g a v : String),
      lookup_license_recursively env g a v 0 = []) ∧
    lookup_license_recursively chainEnv5 "org.x" "a1" "1" 4 = [] ∧
    lookup_license_recursively chainEnv3 "org.x" "b1" "1" 4 = [⟨"MIT", some mitUrl⟩] := by
  refine ⟨fun env g a v d => lookup_eq_shallowest env d g a v, fun env g a v => rfl, ?_, ?_⟩
  · decide
  · decide

/-- C7: traversal is explicitly bounded by the depth counter: the visited
parent chain never exceeds `max_depth` links, even over a cyclic
self-referential environment in which every fetch succeeds the lookup
terminates with an empty result, and depth 0 stops unconditionally. -/
theorem resolve_recursive_terminates_bounded :
    (∀ (env : MavenEnv) (g a v : String) (d : Nat),
      (parentChain env g a v d).length ≤ d) ∧
    (∀ (g a v : String) (d : Nat),
      lookup_license_recursively selfLoopEnv g a v d = []) ∧
    (∀ (env : MavenEnv) (g a v : String),
      lookup_license_recursively env g a v 0 = []) := by
  refine ⟨?_, ?_, fun env g a v => rfl⟩
  · intro env g a v d
    induction d generalizing g a v with
    | zero => simp [parentChain]
    | succ d ih =>
      rw [parentChain]
      cases hf : env.fetch g a v with
      | none => simp [hf]
      | some pom =>
        cases hp : nextParent g pom with
        | none => simp [hf, hp]
        | some t =>
          obtain ⟨pg, pa, pv⟩ := t
          simp only [hf, hp, List.length_cons]
          exact Nat.succ_le_succ (ih pg pa pv)
  · intro g a v d
    induction d generalizing g a v with
    | zero => rfl
    | succ d ih =>
      rw [lookup_license_recursively]
      have hf : selfLoopEnv.fetch g a v = some ⟨[], "", some ⟨g, a, v⟩⟩ := rfl
      have hex : extract_licenses_from_pom selfLoopEnv ⟨[], "", some ⟨g, a, v⟩⟩ = [] := rfl
      by_cases hc : pyStrip a ≠ "" ∧ pyStrip v ≠ ""
      · have hnp : nextParent g ⟨[], "", some ⟨g, a, v⟩⟩ =
            some (pyStrip g, pyStrip a, pyStrip v) := by
          rw [nextParent]
          simp [hc]
        simp only [hf, hex, hnp, ne_eq, not_true_eq_false, if_false]
        exact ih _ _ _
      · have hnp : nextParent g ⟨[], "", some ⟨g, a, v⟩⟩ = none := by
          rw [nextParent]
          simp only [ite_self]
          rw [if_neg hc]
        simp only [hf, hex, hnp, ne_eq, not_true_eq_false, if_false]

lemma assocLookup_mem {κ β : Type} [DecidableEq κ] :
    ∀ (l : List (κ × β)) (k : κ) (b : β), assocLookup l k = some b → (k, b) ∈ l := by
  intro l
  induction l with
  | nil => intro k b h; cases h
  | cons p rest ih =>
    intro k b h
    obtain ⟨k1, b1⟩ := p
    by_cases hk : k = k1
    · subst hk
      rw [assocLookup, if_pos rfl] at h
      cases h
      exact List.mem_cons_self _ _
    · rw [assocLookup, if_neg hk] at h
      exact List.mem_cons_of_mem _ (ih _ _ h)

/-- Every entry of the exact table whose key contains both `apache` and `2.0`
maps to the Apache-2.0 URL. -/
lemma table_apache_2_0 : ∀ p ∈ licenseUrlTable,
    strContainsSub p.1 "apache" = true → strContainsSub p.1 "2.0" = true →
    p.2 = apacheUrl := by decide

/-- C5: whenever the normalized input contains both `apache` and `2.0`,
`get_url` returns the Apache-2.0 URL — through the exact table when the
normalized name is a key, and otherwise through the first heuristic rule. -/
theorem canonicalize_apache_2_0_url (s : String)
    (h1 : strContainsSub (normalizeLicName s) "apache" = true)
    (h2 : strContainsSub (normalizeLicName s) "2.0" = true) :
    get_url s = some apacheUrl := by
  rw [get_url]
  cases htab : assocLookup licenseUrlTable (normalizeLicName s) with
  | some u =>
    have hmem := assocLookup_mem _ _ _ htab
    have hu := table_apache_2_0 _ hmem h1 h2
    simp only [htab]
    exact congrArg some hu
  | none =>
    simp only [htab]
    rw [apply_url_heuristics, if_pos (by rw [h1, h2]; rfl)]

theorem canonicalize_apache_2_0_url_witness :
    strContainsSub (normalizeLicName "Some Apache Thing 2.0") "apache" = true ∧
    get_url "Some Apache Thing 2.0" = some apacheUrl :=
  ⟨by decide, canonicalize_apache_2_0_url "Some Apache Thing 2.0" (by decide) (by decide)⟩

/-- C6: evaluation of `_parse_license_text` at the spec's own example.  The
split regex `,\s*(?![Vv]ersion\b)` backtracks: at `", Version"` the greedy
`\s*` retreats to consuming nothing, the lookahead then sees a space rather
than `Version`, and the comma is a split point after all.  The example
therefore yields three entries, not the two the specification states. -/
theorem parse_license_text_version_split_evaluation :
    parse_license_text "Eclipse Public License, Version 2.0, Apache-2.0" =
      [⟨"Eclipse Public License", some epl1Url⟩,
       ⟨"Version 2.0", none⟩,
       ⟨"Apache-2.0", some apacheUrl⟩] ∧
    (parse_license_text "Eclipse Public License, Version 2.0, Apache-2.0").length = 3 := by
  constructor
  · decide
  · decide

/-- C8: empty and placeholder-dash inputs give the empty list; every other
input is split into fragments, and each fragment is stripped, has URL tokens
deleted, is truncated at its first semicolon and stripped again, non-empty
remainders becoming (canonicalized) license entries; in particular
`"MIT; http://example.com/license"` yields exactly the entry `MIT`. -/
theorem parse_license_text_fragment_processing :
    parse_license_text "" = [] ∧
    parse_license_text "-" = [] ∧
    (∀ text, text ≠ "" → text ≠ "-" →
      parse_license_text text = (splitLicenseParts text).filterMap fun part =>
        let clean_name := cleanFragment part
        if clean_name ≠ "" then some (mkLicense clean_name) else none) ∧
    parse_license_text "MIT; http://example.com/license" = [⟨"MIT", some mitUrl⟩] := by
  refine ⟨rfl, rfl, ?_, by decide⟩
  intro text h1 h2
  rw [parse_license_text, if_neg]
  simp [h1, h2]

theorem parse_license_text_fragment_processing_witness :
    parse_license_text "Custom License Text" = (splitLicenseParts "Custom License Text").filterMap
      (fun part =>
        let clean_name := cleanFragment part
        if clean_name ≠ "" then some (mkLicense clean_name) else none) :=
  parse_license_text_fragment_processing.2.2.1 "Custom License Text" (by decide) (by decide)

/-- C9: a parsed manifest line whose (stripped) package name starts with
`alfresco-` and whose license-text group strips to empty or the placeholder
dash gets the fixed LGPL-3.0-or-later license substituted before license-text
parsing, so the resulting package's license list is exactly that non-empty
fallback entry. -/
theorem alfresco_fallback_license (line n v p lt : String)
    (hm : matchPackageLine (pyStrip line) = some (n, v, p, lt))
    (hn : listHasPre "alfresco-".data (pyStrip n).data = true)
    (hl : pyStrip lt = "" ∨ pyStrip lt = "-") :
    parse_line line = some (build_package n v p lt) ∧
    (build_package n v p lt).licenses = [⟨lgplFallbackText, some lgpl3Url⟩] := by
  constructor
  · have hne : pyStrip line ≠ "" := by
      intro h
      rw [h] at hm
      rw [show matchPackageLine "" = none from rfl] at hm
      cases hm
    rw [parse_line]
    simp [if_neg hne, hm]
  · rw [build_package]
    have hcond : (listHasPre "alfresco-".data (pyStrip n).data &&
        (pyStrip lt = "" || pyStrip lt = "-")) = true := by
      rw [hn]
      rcases hl with h | h <;> simp [h]
    simp only [hcond, if_true]
    decide

theorem alfresco_fallback_license_witness :
    parse_line "alfresco-core:1.0:purl - -" =
      some (build_package "alfresco-core" "1.0" "purl" "-") ∧
    (build_package "alfresco-core" "1.0" "purl" "-").licenses =
      [⟨lgplFallbackText, some lgpl3Url⟩] :=
  alfresco_fallback_license "alfresco-core:1.0:purl - -" "alfresco-core" "1.0" "purl" "-"
    (by decide) (by decide) (Or.inr (by decide))

/-- C4: the registry resolver is attempted only for purls that carry the
`pkg:maven/` tag and split into group/artifact/version: a split failure
(missing `@`, or missing `/` in the coordinates) yields `none` instead of an
error, in which case — and whenever the resolver returns empty — the
name heuristics are consulted; when coordinates exist and the resolver is
non-empty its result is returned and the heuristics are never reached.
(When the purl yields no coordinates the result is the same for every
environment: the registry is not consulted at all.) -/
theorem lookup_order_and_purl_guard :
    (∀ purl, listHasPre "pkg:maven/".data purl.data = false →
      extract_maven_coordinates purl = none) ∧
    (∀ purl, listHasPre "pkg:maven/".data purl.data = true →
      (splitFirst '@' (purl.data.drop 10) = none → extract_maven_coordinates purl = none) ∧
      (∀ coords ver, splitFirst '@' (purl.data.drop 10) = some (coords, ver) →
        splitFirst '/' coords = none → extract_maven_coordinates purl = none)) ∧
    (∀ (env env2 : MavenEnv) (pkg : Package), extract_maven_coordinates pkg.purl = none →
      lookup_package_licenses env pkg = apply_heuristics pkg ∧
      lookup_package_licenses env pkg = lookup_package_licenses env2 pkg) ∧
    (∀ (env : MavenEnv) (pkg : Package) (g a v : String),
      extract_maven_coordinates pkg.purl = some (g, a, v) →
      lookup_package_licenses env pkg =
        (if lookup_license_recursively env g a v 4 = [] then apply_heuristics pkg
         else lookup_license_recursively env g a v 4)) := by
  refine ⟨?_, ?_, ?_, ?_⟩
  · intro purl h
    rw [extract_maven_coordinates, if_neg]
    simp [h]
  · intro purl h
    constructor
    · intro hat
      rw [extract_maven_coordinates, if_pos h]
      simp [hat]
    · intro coords ver hat hsl
      rw [extract_maven_coordinates, if_pos h]
      simp [hat, hsl]
  · intro env env2 pkg h
    rw [lookup_package_licenses, lookup_package_licenses, h]
    exact ⟨rfl, rfl⟩
  · intro env pkg g a v h
    rw [lookup_package_licenses, h]
    by_cases hl : lookup_license_recursively env g a v 4 = []
    · simp [hl]
    · simp [hl]

theorem lookup_order_and_purl_guard_witness :
    extract_maven_coordinates "pkg:maven/noat" = none ∧
    lookup_package_licenses emptyMavenEnv
        ⟨"jakarta.activation", "2.1", "pkg:maven/noat", [], "Original"⟩ =
      apply_heuristics ⟨"jakarta.activation", "2.1", "pkg:maven/noat", [], "Original"⟩ :=
  ⟨by decide,
   ((lookup_order_and_purl_guard.2.2.1 emptyMavenEnv emptyMavenEnv
      ⟨"jakarta.activation", "2.1", "pkg:maven/noat", [], "Original"⟩ (by decide)).1)⟩

/-- C3: enrichment preserves the list's length and order; a package entering
with licenses leaves identical in every field; a package entering without
licenses is unchanged when the lookup chain is empty, and otherwise leaves
with exactly the looked-up licenses and the `Maven/GitHub/Heuristic` source
marker. -/
theorem enrich_frame_conditions (env : MavenEnv) (ps : List Package) :
    (enrich_packages env ps).length = ps.length ∧
    (∀ (i : Nat) (p : Package), ps[i]? = some p →
      (p.licenses ≠ [] → (enrich_packages env ps)[i]? = some p) ∧
      (p.licenses = [] → lookup_package_licenses env p = [] →
        (enrich_packages env ps)[i]? = some p) ∧
      (p.licenses = [] → lookup_package_licenses env p ≠ [] →
        (enrich_packages env ps)[i]? =
          some { p with licenses := lookup_package_licenses env p,
                        license_source := enrichedSource })) := by
  constructor
  · rw [enrich_packages, List.length_map]
  · intro i p hp
    have hmap : (enrich_packages env ps)[i]? = ps[i]?.map (fun pkg =>
        if pkg.licenses = [] then
          let licenses := lookup_package_licenses env pkg
          if licenses = [] then pkg
          else { pkg with licenses := licenses, license_source := enrichedSource }
        else pkg) := by
      rw [enrich_packages, List.getElem?_map]
    refine ⟨?_, ?_, ?_⟩
    · intro hne
      rw [hmap, hp]
      simp only [Option.map]
      rw [if_neg hne]
    · intro hemp hlook
      rw [hmap, hp]
      simp only [Option.map]
      rw [if_pos hemp, if_pos hlook]
    · intro hemp hlook
      rw [hmap, hp]
      simp only [Option.map]
      rw [if_pos hemp]
      simp only [if_neg hlook]

theorem enrich_frame_conditions_witness :
    (enrich_packages emptyMavenEnv [⟨"x", "1", "", [⟨"MIT", none⟩], "Original"⟩])[0]? =
      some ⟨"x", "1", "", [⟨"MIT", none⟩], "Original"⟩ :=
  ((enrich_frame_conditions emptyMavenEnv [⟨"x", "1", "", [⟨"MIT", none⟩], "Original"⟩]).2
    0 ⟨"x", "1", "", [⟨"MIT", none⟩], "Original"⟩ rfl).1 (by decide)

/-! Lemmas about `firstSeen`, `specLicenseUnion` and the deduplicator. -/

lemma mem_firstSeen {α : Type} [DecidableEq α] (x : α) :
    ∀ l : List α, x ∈ firstSeen l ↔ x ∈ l := by
  intro l
  induction l using firstSeen.induct with
  | case1 => rw [firstSeen]
  | case2 k ks ih =>
    rw [firstSeen]
    simp only [List.mem_cons, ih, List.mem_filter, decide_eq_true_eq]
    by_cases hx : x = k
    · simp [hx]
    · simp [hx]

lemma firstSeen_nodup {α : Type} [DecidableEq α] : ∀ l : List α, (firstSeen l).Nodup := by
  intro l
  induction l using firstSeen.induct with
  | case1 => rw [firstSeen]; exact List.nodup_nil
  | case2 k ks ih =>
    rw [firstSeen, List.nodup_cons]
    refine ⟨?_, ih⟩
    intro hk
    have := (mem_firstSeen k _).mp hk
    simp at this

lemma firstSeen_eq_self_of_nodup {α : Type} [DecidableEq α] :
    ∀ l : List α, l.Nodup → firstSeen l = l := by
  intro l
  induction l with
  | nil => intro _; rw [firstSeen]
  | cons k ks ih =>
    intro hnd
    rw [List.nodup_cons] at hnd
    have hf : ks.filter (fun x => x ≠ k) = ks := by
      refine List.filter_eq_self.mpr ?_
      intro x hx
      simp only [decide_eq_true_eq]
      intro hxk
      exact hnd.1 (hxk ▸ hx)
    rw [firstSeen, hf, ih hnd.2]

lemma firstSeen_append_singleton {α : Type} [DecidableEq α] (k : α) :
    ∀ l : List α, firstSeen (l ++ [k]) = firstSeen l ++ (if k ∈ l then [] else [k]) := by
  intro l
  induction l using firstSeen.induct with
  | case1 =>
    simp only [List.nil_append, firstSeen, List.filter_nil]
    rfl
  | case2 a l ih =>
    rw [List.cons_append, firstSeen, List.filter_append]
    by_cases hka : k = a
    · subst hka
      have hfk : [k].filter (fun x => x ≠ k) = [] := by simp
      rw [hfk, List.append_nil]
      rw [if_pos (List.mem_cons_self k l), List.append_nil, firstSeen]
    · have hfk : [k].filter (fun x => x ≠ a) = [k] := by simp [hka]
      rw [hfk, ih]
      rw [firstSeen]
      have hmem : (k ∈ l.filter (fun x => x ≠ a)) ↔ k ∈ l := by
        simp [List.mem_filter, hka]
      by_cases hkl : k ∈ l
      · rw [if_pos (hmem.mpr hkl), if_pos (List.mem_cons_of_mem a hkl)]
        rw [List.append_nil, List.append_nil]
      · rw [if_neg (fun h => hkl (hmem.mp h)), if_neg (by simp [hkl, hka])]
        rw [List.cons_append]

lemma assocLookup_map_key {κ β : Type} [DecidableEq κ] (f : κ → β) :
    ∀ (ks : List κ) (k0 : κ),
    assocLookup (ks.map fun k => (k, f k)) k0 = if k0 ∈ ks then some (f k0) else none := by
  intro ks
  induction ks with
  | nil => intro k0; rfl
  | cons k ks ih =>
    intro k0
    rw [List.map_cons, assocLookup]
    by_cases hk : k0 = k
    · rw [if_pos hk, if_pos (by simp [hk])]
      rw [hk]
    · rw [if_neg hk, ih]
      by_cases hm : k0 ∈ ks
      · rw [if_pos hm, if_pos (by simp [hm])]
      · rw [if_neg hm, if_neg (by simp [hk, hm])]

lemma mem_specLicenseUnion (y : License) :
    ∀ l : List License, y ∈ specLicenseUnion l → y ∈ l := by
  intro l
  induction l using specLicenseUnion.induct with
  | case1 =>
    intro h
    rw [specLicenseUnion] at h
    exact absurd h (List.not_mem_nil y)
  | case2 x xs ih =>
    intro h
    rw [specLicenseUnion] at h
    rcases List.mem_cons.mp h with h | h
    · exact h ▸ List.mem_cons_self _ _
    · exact List.mem_cons_of_mem _ (List.mem_of_mem_filter (ih h))

lemma any_name_filter_ne (nm nm2 : String) (h : nm ≠ nm2) :
    ∀ ls : List License,
    (ls.filter fun x => x.name ≠ nm2).any (fun e => e.name = nm) =
      ls.any (fun e => e.name = nm) := by
  intro ls
  induction ls with
  | nil => rfl
  | cons x ls ih =>
    rw [List.filter_cons]
    by_cases hx : x.name = nm2
    · rw [if_neg (by simp [hx])]
      rw [ih, List.any_cons]
      have hd : (decide (x.name = nm)) = false := by
        rw [hx]
        simp [h.symm]
      simp only [hd, Bool.false_or]
    · rw [if_pos (by simp [hx])]
      rw [List.any_cons, List.any_cons, ih]

lemma specLicenseUnion_any (nm : String) :
    ∀ l : List License,
    (specLicenseUnion l).any (fun e => e.name = nm) = l.any (fun e => e.name = nm) := by
  intro l
  induction l using specLicenseUnion.induct with
  | case1 => rw [specLicenseUnion]
  | case2 x xs ih =>
    rw [specLicenseUnion, List.any_cons, List.any_cons, ih]
    by_cases hnm : nm = x.name
    · have hd : (decide (x.name = nm)) = true := by simp [hnm]
      simp only [hd, Bool.true_or]
    · rw [any_name_filter_ne nm x.name hnm]

lemma specLicenseUnion_append_singleton (y : License) :
    ∀ xs : List License,
    specLicenseUnion (xs ++ [y]) =
      if xs.any (fun e => e.name = y.name) then specLicenseUnion xs
      else specLicenseUnion xs ++ [y] := by
  intro xs
  induction xs using specLicenseUnion.induct with
  | case1 =>
    have h1 : specLicenseUnion [y] = [y] := by
      rw [specLicenseUnion, List.filter_nil, specLicenseUnion]
    rw [List.nil_append, h1, specLicenseUnion, if_neg (by simp), List.nil_append]
  | case2 x xs ih =>
    rw [List.cons_append, specLicenseUnion, List.filter_append]
    by_cases hyx : y.name = x.name
    · have hfy : [y].filter (fun z => z.name ≠ x.name) = [] := by simp [hyx]
      rw [hfy, List.append_nil]
      rw [if_pos (by rw [List.any_cons]; simp [hyx]), specLicenseUnion]
    · have hfy : [y].filter (fun z => z.name ≠ x.name) = [y] := by simp [hyx]
      rw [hfy, ih, any_name_filter_ne y.name x.name hyx]
      by_cases hany : xs.any (fun e => e.name = y.name) = true
      · rw [if_pos hany, if_pos (by rw [List.any_cons, hany, Bool.or_true]), specLicenseUnion]
      · rw [if_neg hany]
        rw [if_neg (by
          rw [List.any_cons]
          simp only [Bool.or_eq_true, not_or, decide_eq_true_eq]
          exact ⟨fun hc => hyx hc.symm, hany⟩)]
        rw [specLicenseUnion, List.cons_append]

/-- The license-merging loop of the deduplicator computes the spec's
first-seen union. -/
lemma mergeLicenses_union :
    ∀ (ys xs : List License),
    mergeLicenses (specLicenseUnion xs) ys = specLicenseUnion (xs ++ ys) := by
  intro ys
  induction ys with
  | nil => intro xs; rw [mergeLicenses, List.foldl_nil, List.append_nil]
  | cons y ys ih =>
    intro xs
    rw [mergeLicenses, List.foldl_cons]
    have hstep : (if (specLicenseUnion xs).any (fun e => e.name = y.name)
          then specLicenseUnion xs else specLicenseUnion xs ++ [y]) =
        specLicenseUnion (xs ++ [y]) := by
      rw [specLicenseUnion_append_singleton, specLicenseUnion_any]
    rw [hstep]
    have := ih (xs ++ [y])
    rw [mergeLicenses] at this
    rw [this, List.append_assoc, List.singleton_append]

lemma mergeLicenses_nil_spec (ys : List License) :
    mergeLicenses [] ys = specLicenseUnion ys := by
  have h := mergeLicenses_union ys []
  rw [specLicenseUnion] at h
  rw [List.nil_append] at h
  exact h

lemma specLicenseUnion_filter_ne (nm : String) :
    ∀ l : List License,
    specLicenseUnion (l.filter fun x => x.name ≠ nm) =
      (specLicenseUnion l).filter fun x => x.name ≠ nm := by
  intro l
  induction l using specLicenseUnion.induct with
  | case1 =>
    rw [List.filter_nil, specLicenseUnion, List.filter_nil]
  | case2 x xs ih =>
    rw [List.filter_cons]
    by_cases hx : x.name = nm
    · rw [if_neg (by simp [hx])]
      rw [specLicenseUnion, List.filter_cons, if_neg (by simp [hx]), ← ih]
      congr 1
      rw [List.filter_filter]
      refine List.filter_congr ?_
      intro z _
      rw [hx, Bool.and_self]
    · rw [if_pos (by simp [hx])]
      rw [specLicenseUnion, specLicenseUnion, List.filter_cons, if_pos (by simp [hx]), ← ih]
      congr 2
      rw [List.filter_filter, List.filter_filter]
      refine List.filter_congr ?_
      intro z _
      rw [Bool.and_comm]

lemma specLicenseUnion_idem :
    ∀ l : List License, specLicenseUnion (specLicenseUnion l) = specLicenseUnion l := by
  intro l
  induction l using specLicenseUnion.induct with
  | case1 => rw [specLicenseUnion, specLicenseUnion]
  | case2 x xs ih =>
    rw [specLicenseUnion, specLicenseUnion]
    congr 1
    have hff : (xs.filter fun z => z.name ≠ x.name).filter (fun z => z.name ≠ x.name) =
        xs.filter fun z => z.name ≠ x.name := by
      rw [List.filter_filter]
      refine List.filter_congr ?_
      intro z _
      rw [Bool.and_self]
    rw [← specLicenseUnion_filter_ne, hff, ih]

lemma filter_key_append_ne (ps : List Package) (p : Package) (k : String × String)
    (h : p.unique_key ≠ k) :
    (ps ++ [p]).filter (fun q => q.unique_key = k) = ps.filter (fun q => q.unique_key = k) := by
  rw [List.filter_append]
  have hp : [p].filter (fun q => q.unique_key = k) = [] := by simp [h]
  rw [hp, List.append_nil]

lemma filter_key_append_self (ps : List Package) (p : Package) :
    (ps ++ [p]).filter (fun q => q.unique_key = p.unique_key) =
      ps.filter (fun q => q.unique_key = p.unique_key) ++ [p] := by
  rw [List.filter_append]
  congr 1
  simp

lemma filter_key_nil_of_not_mem (ps : List Package) (k : String × String)
    (h : k ∉ ps.map Package.unique_key) :
    ps.filter (fun q => q.unique_key = k) = [] := by
  refine List.filter_eq_nil_iff.mpr ?_
  intro q hq
  simp only [decide_eq_true_eq]
  intro hqk
  exact h (hqk ▸ List.mem_map_of_mem Package.unique_key hq)

lemma group_ne_nil_of_mem_keys (ps : List Package) (k : String × String)
    (h : k ∈ ps.map Package.unique_key) :
    ps.filter (fun q => q.unique_key = k) ≠ [] := by
  obtain ⟨q, hq, rfl⟩ := List.mem_map.mp h
  intro hnil
  have hmem : q ∈ ps.filter (fun q2 => q2.unique_key = q.unique_key) := by
    rw [List.mem_filter]
    exact ⟨hq, by simp⟩
  rw [hnil] at hmem
  exact absurd hmem (List.not_mem_nil q)

lemma specMerged_append_ne (ps : List Package) (p : Package) (k : String × String)
    (h : p.unique_key ≠ k) :
    specMerged (ps ++ [p]) k = specMerged ps k := by
  have hf := filter_key_append_ne ps p k h
  simp only [specMerged, hf]

lemma specMerged_cons_ne (q : Package) (qs : List Package) (k : String × String)
    (h : q.unique_key ≠ k) :
    specMerged (q :: qs) k = specMerged qs k := by
  have hf : (q :: qs).filter (fun p => p.unique_key = k) =
      qs.filter (fun p => p.unique_key = k) := by
    rw [List.filter_cons, if_neg (by simp [h])]
  simp only [specMerged, hf]

lemma specMerged_new (ps : List Package) (p : Package)
    (h : p.unique_key ∉ ps.map Package.unique_key) :
    specMerged (ps ++ [p]) p.unique_key =
      { name := p.name, version := p.version, purl := p.purl,
        licenses := specLicenseUnion p.licenses, license_source := p.license_source } := by
  have h1 : (ps ++ [p]).filter (fun q => q.unique_key = p.unique_key) = [p] := by
    rw [filter_key_append_self, filter_key_nil_of_not_mem ps _ h, List.nil_append]
  simp only [specMerged]
  rw [h1]
  simp only [List.map_cons, List.map_nil, List.flatten_cons, List.flatten_nil, List.append_nil]
  rfl

lemma specMerged_append_self (ps : List Package) (p : Package)
    (h : p.unique_key ∈ ps.map Package.unique_key) :
    specMerged (ps ++ [p]) p.unique_key =
      { specMerged ps p.unique_key with
        licenses := mergeLicenses (specMerged ps p.unique_key).licenses p.licenses } := by
  have hne := group_ne_nil_of_mem_keys ps p.unique_key h
  have hgroup := filter_key_append_self ps p
  have hhead : ((ps ++ [p]).filter fun q => q.unique_key = p.unique_key).head? =
      (ps.filter fun q => q.unique_key = p.unique_key).head? := by
    rw [hgroup]
    exact List.head?_append_of_ne_nil _ hne
  have hlic : ((((ps ++ [p]).filter fun q => q.unique_key = p.unique_key).map
        Package.licenses).flatten) =
      ((ps.filter fun q => q.unique_key = p.unique_key).map Package.licenses).flatten ++
        p.licenses := by
    rw [hgroup, List.map_append, List.flatten_append]
    simp
  simp only [specMerged]
  rw [hhead, hlic, ← mergeLicenses_union]

/-- The state of the `deduplicate` fold after any prefix of the input is the
insertion-ordered map from the distinct keys seen so far to the spec-side
merge of their groups. -/
lemma dedup_state : ∀ ps : List Package,
    ps.foldl dedupStep [] =
      (firstSeen (ps.map Package.unique_key)).map fun k => (k, specMerged ps k) := by
  intro ps
  induction ps using List.reverseRecOn with
  | nil =>
    rw [List.foldl_nil, List.map_nil, firstSeen, List.map_nil]
  | append_singleton ps p ih =>
    rw [List.foldl_append, List.foldl_cons, List.foldl_nil, ih]
    rw [List.map_append, List.map_cons, List.map_nil, firstSeen_append_singleton]
    by_cases hk : p.unique_key ∈ ps.map Package.unique_key
    · rw [if_pos hk, List.append_nil]
      dsimp only [dedupStep]
      have hlook : assocLookup
          ((firstSeen (ps.map Package.unique_key)).map fun k => (k, specMerged ps k))
          p.unique_key = some (specMerged ps p.unique_key) := by
        rw [assocLookup_map_key, if_pos ((mem_firstSeen _ _).mpr hk)]
      rw [hlook]
      dsimp only []
      rw [List.map_map]
      refine List.map_congr_left ?_
      intro k hkmem
      dsimp only [Function.comp]
      by_cases hkp : k = p.unique_key
      · subst hkp
        rw [if_pos rfl, specMerged_append_self ps p hk]
      · rw [if_neg hkp, specMerged_append_ne ps p k (fun he => hkp he.symm)]
    · rw [if_neg hk]
      dsimp only [dedupStep]
      have hlook : assocLookup
          ((firstSeen (ps.map Package.unique_key)).map fun k => (k, specMerged ps k))
          p.unique_key = none := by
        rw [assocLookup_map_key, if_neg (fun hm => hk ((mem_firstSeen _ _).mp hm))]
      rw [hlook]
      dsimp only []
      rw [List.map_append]
      congr 1
      · refine List.map_congr_left ?_
        intro k hkmem
        have hkne : p.unique_key ≠ k := fun he => hk (he ▸ (mem_firstSeen _ _).mp hkmem)
        rw [specMerged_append_ne ps p k hkne]
      · rw [List.map_cons, List.map_nil, specMerged_new ps p hk, mergeLicenses_nil_spec]

/-- `PackageDeduplicator.deduplicate` computes exactly the spec-side
deduplicator. -/
lemma dedup_eq_spec : ∀ ps : List Package, deduplicate ps = spec_dedup ps := by
  intro ps
  rw [deduplicate, dedup_state, spec_dedup, List.map_map]
  rfl

lemma spec_dedup_keys (ps : List Package) :
    (spec_dedup ps).map Package.unique_key = firstSeen (ps.map Package.unique_key) := by
  rw [spec_dedup, List.map_map]
  have hcomp : (Package.unique_key ∘ specMerged ps) = id := by
    funext k
    rfl
  rw [hcomp, List.map_id]

/-- A list with pairwise-distinct keys whose members all have name-distinct
license lists is a fixed point of the spec-side deduplicator. -/
lemma spec_dedup_fixed : ∀ qs : List Package,
    (qs.map Package.unique_key).Nodup →
    (∀ q ∈ qs, specLicenseUnion q.licenses = q.licenses) →
    spec_dedup qs = qs := by
  intro qs
  induction qs with
  | nil =>
    intro _ _
    rw [spec_dedup, List.map_nil, firstSeen, List.map_nil]
  | cons q qs ih =>
    intro hnd hfix
    rw [List.map_cons, List.nodup_cons] at hnd
    rw [spec_dedup, List.map_cons, firstSeen]
    have hfilt : (qs.map Package.unique_key).filter (fun x => x ≠ q.unique_key) =
        qs.map Package.unique_key := by
      refine List.filter_eq_self.mpr ?_
      intro x hx
      simp only [decide_eq_true_eq]
      intro hxq
      exact hnd.1 (hxq ▸ hx)
    rw [hfilt, List.map_cons]
    congr 1
    · have hgroup : (q :: qs).filter (fun p => p.unique_key = q.unique_key) = [q] := by
        rw [List.filter_cons, if_pos (by simp), filter_key_nil_of_not_mem qs _ hnd.1]
      simp only [specMerged]
      rw [hgroup]
      simp only [List.map_cons, List.map_nil, List.flatten_cons, List.flatten_nil,
        List.append_nil]
      rw [hfix q (List.mem_cons_self q qs)]
      rfl
    · have hcongr : ∀ k ∈ firstSeen (qs.map Package.unique_key),
          specMerged (q :: qs) k = specMerged qs k := by
        intro k hkmem
        have hkq : q.unique_key ≠ k := by
          intro he
          exact hnd.1 (he ▸ (mem_firstSeen _ _).mp hkmem)
        exact specMerged_cons_ne q qs k hkq
      rw [List.map_congr_left hcongr]
      have hrec := ih hnd.2 (fun x hx => hfix x (List.mem_cons_of_mem q hx))
      rw [spec_dedup] at hrec
      exact hrec

/-- C2: `deduplicate` equals the spec-side deduplicator `spec_dedup`, which
produces one package per distinct `(name, version)` key in first-seen order,
carrying the first-seen member's name, version, purl and license source and
the first-seen-ordered union of the group's licenses with name-identical
repeats dropped; in particular two same-key inputs with disjoint license sets
`{A}` and `{B}` merge to one package with licenses `[A, B]`, and an
overlapping license name yields no duplicate entry. -/
theorem deduplicate_merges_by_key :
    (∀ ps : List Package, deduplicate ps = spec_dedup ps) ∧
    deduplicate [⟨"x", "1", "purlA", [⟨"A", none⟩], "Original"⟩,
                 ⟨"x", "1", "purlB", [⟨"B", none⟩], "Other"⟩] =
      [⟨"x", "1", "purlA", [⟨"A", none⟩, ⟨"B", none⟩], "Original"⟩] ∧
    deduplicate [⟨"x", "1", "purlA", [⟨"A", none⟩], "Original"⟩,
                 ⟨"x", "1", "purlB", [⟨"A", some "u"⟩, ⟨"B", none⟩], "Other"⟩] =
      [⟨"x", "1", "purlA", [⟨"A", none⟩, ⟨"B", none⟩], "Original"⟩] :=
  ⟨dedup_eq_spec, by decide, by decide⟩

/-- C10: `deduplicate` is idempotent — re-deduplicating its output returns
the same packages with identical fields, license lists and order, because
after one pass all keys are distinct and license names within a package are
unique. -/
theorem deduplicate_idempotent :
    ∀ ps : List Package, deduplicate (deduplicate ps) = deduplicate ps := by
  intro ps
  rw [dedup_eq_spec ps, dedup_eq_spec (spec_dedup ps)]
  apply spec_dedup_fixed
  · rw [spec_dedup_keys]
    exact firstSeen_nodup _
  · intro q hq
    rw [spec_dedup] at hq
    obtain ⟨k, hk, rfl⟩ := List.mem_map.mp hq
    show specLicenseUnion (specMerged ps k).licenses = (specMerged ps k).licenses
    have hl : (specMerged ps k).licenses =
        specLicenseUnion (((ps.filter fun p => p.unique_key = k).map
          Package.licenses).flatten) := rfl
    rw [hl, specLicenseUnion_idem]

end Sbom
